import Mathlib

/-!
# Verification of the gravitational-memory encoding/retrieval core

Shallow embedding of `src/services/gravitational.ts` and
`src/services/storage.ts` of the `ai-books-mcp-server` repository.

Modelling conventions:
* JavaScript strings are modelled as `List Char` (sequences of Unicode
  scalar values).  `String.prototype.length` (UTF-16 code units) is
  modelled by `jsLength`; `Buffer.byteLength(s, 'utf8')` by `utf8Length`.
* JavaScript numbers are modelled exactly: integer quantities by `Nat`
  (or `Int` where the source accepts negative values) and fractional
  quantities (similarity scores, compression ratios) by `Rat`.
* `crypto.createHash('sha256')....digest('hex')` is an external library
  call (Node's `crypto`, not part of this repository); it is modelled by
  an explicit function parameter `sha : List Char → List Char` standing
  for the map from content to lowercase-hex digest string.  Theorems that
  need it assume the SHA-256 output-shape fact `(sha s).length = 64`
  (raw digest of 32 bytes, rendered as 64 hex characters).
* `crypto.randomUUID()` and `new Date().toISOString()` are
  environment-supplied values; they are passed in as explicit arguments.
* `String.prototype.split(regexpClass)` where the regexp is a character
  class repeated (`/\s+/`, `/\W+/`) splits on maximal runs of matching
  characters and yields an empty token before a leading run and after a
  trailing run; `splitOn` reproduces exactly this semantics.
* `Array.prototype.sort` with comparator `(a, b) => b.score - a.score`
  is, per the ECMAScript specification, a stable sort; with this
  consistent comparator its output is uniquely determined: elements in
  non-increasing score order, ties in original order.  `sortDesc` (a
  stable insertion sort) is that function.
-/

namespace GravMem

/-- ASCII whitespace characters matched by the JavaScript regexp class
`\s` (the Unicode space separators are omitted from the model; the
claims only involve ASCII inputs). -/
def isWs (c : Char) : Bool :=
  c = ' ' || c = '\t' || c = '\n' || c = '\r' || c = '\x0b' || c = '\x0c'

/-- Word characters of the JavaScript regexp class `\w`
(`[A-Za-z0-9_]`); `\W` is its complement. -/
def isWordChar (c : Char) : Bool :=
  ('a' ≤ c && c ≤ 'z') || ('A' ≤ c && c ≤ 'Z') || ('0' ≤ c && c ≤ '9') || c = '_'

theorem length_dropWhile_le' (p : Char → Bool) (l : List Char) :
    (l.dropWhile p).length ≤ l.length := by
  induction l with
  | nil => simp
  | cons c rest ih =>
    by_cases h : p c
    · simpa [List.dropWhile, h] using Nat.le_succ_of_le ih
    · simp [List.dropWhile, h]

/-- Helper for `splitOn`: `acc` is the current token, reversed. -/
def splitOnAux (p : Char → Bool) : List Char → List Char → List (List Char)
  | [], acc => [acc.reverse]
  | c :: rest, acc =>
    if p c then
      acc.reverse :: splitOnAux p (rest.dropWhile p) []
    else
      splitOnAux p rest (c :: acc)
termination_by s _ => s.length
decreasing_by
  · simp only [List.length_cons]
    exact Nat.lt_succ_of_le (length_dropWhile_le' p rest)
  · simp

/-- `s.split(/X+/)` for a character class `X` decided by `p`: split on
maximal runs of matching characters.  An empty token appears before a
leading run and after a trailing run, exactly as in JavaScript
(`" a".split(/\s+/) == ["", "a"]`, `"".split(/\s+/) == [""]`). -/
def splitOn (p : Char → Bool) (s : List Char) : List (List Char) :=
  splitOnAux p s []

/-- `text.split(/\s+/)` from `chunkText` and the word-count metadata. -/
def splitWs (s : List Char) : List (List Char) := splitOn isWs s

/-- `s.split(/\W+/)` from `calculateSimilarity`. -/
def splitNonWord (s : List Char) : List (List Char) :=
  splitOn (fun c => !isWordChar c) s

/-- `arr.join(' ')` for an array of strings. -/
def joinSpace : List (List Char) → List Char
  | [] => []
  | [t] => t
  | t :: rest => t ++ ' ' :: joinSpace rest

/-- `String.prototype.toLowerCase`, restricted to the ASCII range that
the model's character predicates use. -/
def jsToLower (s : List Char) : List Char := s.map Char.toLower

/-- JavaScript `String.prototype.length`: number of UTF-16 code units
(astral code points count twice). -/
def jsLength (s : List Char) : Nat :=
  (s.map (fun c => if c.toNat < 0x10000 then 1 else 2)).sum

/-- `Buffer.byteLength(s, 'utf8')`: UTF-8 encoded size of the string. -/
def utf8Length (s : List Char) : Nat :=
  (s.map (fun c =>
    if c.toNat < 0x80 then 1
    else if c.toNat < 0x800 then 2
    else if c.toNat < 0x10000 then 3
    else 4)).sum

/-- Numeric value of one hexadecimal digit (`Buffer.from(·, 'hex')`
digit decoding). -/
def hexVal (c : Char) : Nat :=
  if '0' ≤ c ∧ c ≤ '9' then c.toNat - '0'.toNat
  else if 'a' ≤ c ∧ c ≤ 'f' then c.toNat - 'a'.toNat + 10
  else if 'A' ≤ c ∧ c ≤ 'F' then c.toNat - 'A'.toNat + 10
  else 0

/-- `Buffer.from(hex, 'hex')`: decode consecutive pairs of hex digits
into bytes (a trailing unpaired digit is dropped, as in Node). -/
def hexToBytes : List Char → List Nat
  | a :: b :: rest => (hexVal a * 16 + hexVal b) :: hexToBytes rest
  | _ => []

/-- `GravitationalBit` record from `gravitational.ts`. -/
structure GravitationalBit where
  hash : List Char
  states : List Nat
  n_max : Int
  compression_ratio : Rat
deriving Repr, DecidableEq

/-- `CompressedChunk` record from `gravitational.ts` (the `metadata`
object is flattened into the record). -/
structure CompressedChunk where
  id : List Char
  content : List Char
  hash : List Char
  gravitational_bit : GravitationalBit
  word_count : Nat
  character_count : Nat
  created_at : List Char
deriving Repr, DecidableEq

/-- `KnowledgeLibrary` record from `gravitational.ts`. -/
structure KnowledgeLibrary where
  name : List Char
  chunks : List CompressedChunk
  total_compression_ratio : Rat
  created_at : List Char
  updated_at : List Char
deriving Repr, DecidableEq

/-- `calculateGravitationalStates(hash, n_max)`: decode the hex digest,
keep the first 16 bytes, and for each level `n` from 1 to `n_max` emit
`relevantBytes[(n-1) % relevantBytes.length] % (2*n*n + 1)`.  The
`for (let n = 1; n <= n_max; n++)` loop runs `max n_max 0` times, which
is `n_max.toNat`.  The model presumes a well-formed digest (at least
one decodable byte), the spec's documented encoder precondition. -/
def calculateGravitationalStates (hash : List Char) (n_max : Int) : List Nat :=
  let hashBytes := hexToBytes hash
  let relevantBytes := hashBytes.take 16
  (List.range n_max.toNat).map (fun i =>
    let n := i + 1
    let orbitalCapacity := 2 * n * n
    let byteIndex := (n - 1) % relevantBytes.length
    (relevantBytes.getD byteIndex 0) % (orbitalCapacity + 1))

/-- The auxiliary "total addressable states" product computed (and never
used) inside `compressChunk`. -/
def totalAddressableStates (n_max : Int) : Nat :=
  (List.range n_max.toNat).foldl (fun acc i => acc * (2 * (i+1) * (i+1) + 1)) 1

/-- `compressChunk(content, n_max)`.  `sha` models the external SHA-256
hex-digest call; `uuid` and `now` model `crypto.randomUUID()` and
`new Date().toISOString()`, which are environment-supplied. -/
def compressChunk (sha : List Char → List Char) (content : List Char)
    (n_max : Int) (uuid now : List Char) : CompressedChunk :=
  let hash := sha content
  let states := calculateGravitationalStates hash n_max
  let originalSize := utf8Length content
  let compressedSize := 32 + states.length * 4
  let compressionRatio : Rat := (originalSize : Rat) / (compressedSize : Rat)
  { id := uuid
    content := content
    hash := hash
    gravitational_bit :=
      { hash := hash
        states := states
        n_max := n_max
        compression_ratio := compressionRatio }
    word_count := (splitWs content).length
    character_count := jsLength content
    created_at := now }

/-- `a.includes(b)`: `b` occurs as a contiguous substring of `a`. -/
def includes (a b : List Char) : Bool := decide (b <:+: a)

/-- `calculateSimilarity(query, chunk)`: 70 % keyword overlap plus 30 %
hex-digest character agreement, on exact rationals. -/
def calculateSimilarity (sha : List Char → List Char) (query : List Char)
    (chunk : CompressedChunk) : Rat :=
  let queryHash := sha (jsToLower query)
  let chunkHash := chunk.hash
  let hashMatches :=
    ((queryHash.zip chunkHash).filter (fun p => p.1 = p.2)).length
  let hashSimilarity : Rat := (hashMatches : Rat) / (queryHash.length : Rat)
  let queryWords := (splitNonWord (jsToLower query)).filter (fun w => w.length > 3)
  let contentWords := splitNonWord (jsToLower chunk.content)
  let keywordMatches :=
    (queryWords.filter (fun qWord =>
      contentWords.any (fun cWord =>
        includes cWord qWord || includes qWord cWord))).length
  let keywordSimilarity : Rat :=
    if queryWords.length > 0 then (keywordMatches : Rat) / (queryWords.length : Rat)
    else 0
  keywordSimilarity * (7 / 10) + hashSimilarity * (3 / 10)

/-- The groups of at most `w` consecutive elements taken by the loop
`for (let i = 0; i < words.length; i += targetWordsPerChunk)` in
`chunkText`.  For `w = 0` the JavaScript loop would not terminate; the
model returns `[]` there (the claims only concern `w ≥ 1`). -/
def groupsOf (w : Nat) : List (List Char) → List (List (List Char))
  | [] => []
  | x :: xs =>
    if _ : w = 0 then []
    else ((x :: xs).take w) :: groupsOf w ((x :: xs).drop w)
termination_by l => l.length
decreasing_by
  simp only [List.length_drop, List.length_cons]
  omega

/-- `chunkText(text, targetWordsPerChunk)`: split on whitespace runs,
group words `targetWordsPerChunk` at a time, join each group with a
single space. -/
def chunkText (text : List Char) (targetWordsPerChunk : Nat) : List (List Char) :=
  (groupsOf targetWordsPerChunk (splitWs text)).map joinSpace

/-- `createLibrary(name, text, n_max)`.  `uuidOf i` / `tsOf i` supply
the environment values (`crypto.randomUUID()`, `new Date()`) consumed
by the `i`-th `compressChunk` call; `now` supplies the library
timestamps.  `chunkText` is called with its default of 250. -/
def createLibrary (sha : List Char → List Char) (name text : List Char)
    (n_max : Int) (uuidOf tsOf : Nat → List Char) (now : List Char) :
    KnowledgeLibrary :=
  let textChunks := chunkText text 250
  let compressedChunks := textChunks.enum.map
    (fun p => compressChunk sha p.2 n_max (uuidOf p.1) (tsOf p.1))
  let totalOriginalSize := jsLength text
  let totalCompressedSize := compressedChunks.foldl
    (fun sum chunk => sum + 32 + chunk.gravitational_bit.states.length * 4)
    (0 : Nat)
  let totalCompressionRatio : Rat :=
    (totalOriginalSize : Rat) / (totalCompressedSize : Rat)
  { name := name
    chunks := compressedChunks
    total_compression_ratio := totalCompressionRatio
    created_at := now
    updated_at := now }

/-- Stable descending insertion for `sortDesc`: `x` is placed before
the first element whose score is not greater than `x`'s, so earlier
elements win ties. -/
def insertDesc (x : CompressedChunk × Rat) :
    List (CompressedChunk × Rat) → List (CompressedChunk × Rat)
  | [] => [x]
  | y :: ys => if y.2 > x.2 then y :: insertDesc x ys else x :: y :: ys

/-- `scoredChunks.sort((a, b) => b.score - a.score)`: the unique output
of a stable sort under this consistent comparator — non-increasing
score, ties kept in original order — realised as a stable insertion
sort. -/
def sortDesc : List (CompressedChunk × Rat) → List (CompressedChunk × Rat)
  | [] => []
  | x :: xs => insertDesc x (sortDesc xs)

/-- `queryLibrary(library, query, topK)`: score every chunk, sort the
scored copy descending, return the first `topK` chunks. -/
def queryLibrary (sha : List Char → List Char) (library : KnowledgeLibrary)
    (query : List Char) (topK : Nat) : List CompressedChunk :=
  let scoredChunks := library.chunks.map
    (fun chunk => (chunk, calculateSimilarity sha query chunk))
  let sorted := sortDesc scoredChunks
  (sorted.take topK).map (fun sc => sc.1)

/-- `queryLibrary` with the state of the library it reads threaded
through explicitly: the function body sorts the freshly built
`scoredChunks` array and never assigns to the library or its `chunks`
field, so the library component of the result is the input library. -/
def queryLibraryState (sha : List Char → List Char)
    (library : KnowledgeLibrary) (query : List Char) (topK : Nat) :
    List CompressedChunk × KnowledgeLibrary :=
  (queryLibrary sha library query topK, library)

/-- `verifyIntegrity(chunk)`: recompute the digest of the stored
content and compare with the recorded digest. -/
def verifyIntegrity (sha : List Char → List Char)
    (chunk : CompressedChunk) : Bool :=
  decide (sha chunk.content = chunk.hash)

/-- The `LibraryStorage` `Map` from `storage.ts`, modelled as an
insertion-ordered association list with unique keys (the invariant a
JavaScript `Map` maintains by construction). -/
abbrev LibraryStorage := List (List Char × KnowledgeLibrary)

/-- `Map.prototype.has(name)`. -/
def storageHas (s : LibraryStorage) (name : List Char) : Bool :=
  s.any (fun p => p.1 = name)

/-- `save(library)` = `Map.prototype.set`: update in place if the key
exists (preserving insertion order), else append. -/
def storageSave (s : LibraryStorage) (lib : KnowledgeLibrary) : LibraryStorage :=
  if storageHas s lib.name then
    s.map (fun p => if p.1 = lib.name then (p.1, lib) else p)
  else s ++ [(lib.name, lib)]

/-- `delete(name)` = `Map.prototype.delete`: returns whether the key
was present, and the store with that key removed. -/
def storageDelete (s : LibraryStorage) (name : List Char) :
    Bool × LibraryStorage :=
  (storageHas s name, s.filter (fun p => ¬ (p.1 = name)))

/-! ## Helper lemmas -/

theorem hexToBytes_length : ∀ s : List Char, (hexToBytes s).length = s.length / 2
  | [] => by simp [hexToBytes]
  | [_] => by simp [hexToBytes]
  | a :: b :: rest => by
      simp only [hexToBytes, List.length_cons, hexToBytes_length rest]
      omega

theorem calculateGravitationalStates_length (hash : List Char) (n_max : Int) :
    (calculateGravitationalStates hash n_max).length = n_max.toNat := by
  simp [calculateGravitationalStates]

/-! ## Claims -/

/-- C8.  Determinism of the Descriptor Encoder: two invocations of
`compressChunk` with the same content and the same `n_max` produce the
same `gravitational_bit` (digest, states, `n_max`, per-chunk
compression ratio), whatever chunk identifier and creation timestamp
the environment supplies to each call. -/
theorem compressChunk_deterministic (sha : List Char → List Char)
    (content : List Char) (n_max : Int) (uuid₁ now₁ uuid₂ now₂ : List Char) :
    (compressChunk sha content n_max uuid₁ now₁).gravitational_bit
      = (compressChunk sha content n_max uuid₂ now₂).gravitational_bit := rfl

/-- C7 counterexample.  The claim says the encoder invoked with
`nMax < 1` rejects the call and produces no descriptor output.  In the
code there is no such check: at `nMax = 0` the level loop simply runs
zero times and `compressChunk` returns a normally-formed chunk whose
descriptor has an empty states list — output is produced, so no
rejection happens. -/
theorem encoder_no_reject_counterexample :
    (compressChunk (fun _ => List.replicate 64 '0')
        (String.toList "abc") 0 [] []).gravitational_bit
      = { hash := List.replicate 64 '0', states := [], n_max := 0,
          compression_ratio := 3 / 32 } := by
  have h3 : utf8Length (String.toList "abc") = 3 := by decide
  simp only [compressChunk, calculateGravitationalStates, GravitationalBit.mk.injEq, h3]
  norm_num

/-- C7 amended.  For every `nMax < 1` the encoder performs no per-level
computation at all — in particular no modulo by a non-positive capacity
is ever attempted, since the states list is empty — but it does not
reject the call: `compressChunk` returns a chunk whose descriptor
carries an empty states sequence. -/
theorem encoder_nmax_lt_one (sha : List Char → List Char)
    (content : List Char) (n_max : Int) (uuid now : List Char)
    (h : n_max < 1) :
    calculateGravitationalStates (sha content) n_max = [] ∧
    (compressChunk sha content n_max uuid now).gravitational_bit.states = [] := by
  have h0 : n_max.toNat = 0 := by omega
  constructor
  · simp [calculateGravitationalStates, h0]
  · simp [compressChunk, calculateGravitationalStates, h0]

/-- Witness for the C7 amended theorem at `n_max = -3`. -/
theorem encoder_nmax_lt_one_witness :
    calculateGravitationalStates ((fun _ => List.replicate 64 '0')
        (String.toList "abc")) (-3) = [] ∧
    (compressChunk (fun _ => List.replicate 64 '0') (String.toList "abc")
        (-3) [] []).gravitational_bit.states = [] :=
  encoder_nmax_lt_one (fun _ => List.replicate 64 '0')
    (String.toList "abc") (-3) [] [] (by decide)

/-- C9.  Deleting a stored library twice yields `deleted = true` then
`deleted = false`; deleting an absent library is not an error, reports
`deleted = false`, and leaves the store unchanged. -/
theorem storageDelete_idempotent (s : LibraryStorage) (name : List Char) :
    (storageHas s name = true →
        (storageDelete s name).1 = true ∧
        (storageDelete (storageDelete s name).2 name).1 = false) ∧
    (storageHas s name = false →
        (storageDelete s name).1 = false ∧
        (storageDelete s name).2 = s) := by
  constructor
  · intro hpresent
    refine ⟨hpresent, ?_⟩
    simp only [storageDelete, storageHas]
    rw [List.any_eq_false]
    intro p hp
    have := List.of_mem_filter hp
    simpa using this
  · intro habsent
    refine ⟨habsent, ?_⟩
    simp only [storageDelete]
    apply List.filter_eq_self.mpr
    intro p hp
    have : ¬ (p.1 = name) := by
      intro hcontra
      have : storageHas s name = true := by
        simp only [storageHas]
        exact List.any_eq_true.mpr ⟨p, hp, by simpa using hcontra⟩
      simp [this] at habsent
    simpa using this

/-- Witness for C9 at a one-entry store: the stored name is deleted
twice (`true` then `false`) and an absent name reports `false` with the
store untouched. -/
theorem storageDelete_idempotent_witness :
    ((storageDelete [(String.toList "demo", KnowledgeLibrary.mk
        (String.toList "demo") [] 0 [] [])] (String.toList "demo")).1 = true ∧
      (storageDelete (storageDelete [(String.toList "demo",
          KnowledgeLibrary.mk (String.toList "demo") [] 0 [] [])]
          (String.toList "demo")).2 (String.toList "demo")).1 = false) ∧
    ((storageDelete [(String.toList "demo", KnowledgeLibrary.mk
        (String.toList "demo") [] 0 [] [])] (String.toList "other")).1 = false ∧
      (storageDelete [(String.toList "demo", KnowledgeLibrary.mk
          (String.toList "demo") [] 0 [] [])] (String.toList "other")).2
        = [(String.toList "demo", KnowledgeLibrary.mk
            (String.toList "demo") [] 0 [] [])]) :=
  ⟨(storageDelete_idempotent _ _).1 (by decide),
   (storageDelete_idempotent _ _).2 (by decide)⟩

/-- C1.  The Descriptor Encoder on any content and any `nMax ≥ 1`
produces exactly `nMax` states, and for each level `n` from 1 to
`nMax`, `states[n]` is byte `(n-1) mod 16` of the raw digest reduced
modulo `2*n*n + 1`; hence every state is at most `2*n*n`.  The only
fact used about SHA-256 is its output shape: a 64-character hex string
(32 raw bytes). -/
theorem gravitationalStates_spec (sha : List Char → List Char)
    (content : List Char) (nMax : Int)
    (h1 : 1 ≤ nMax) (h64 : (sha content).length = 64) :
    (calculateGravitationalStates (sha content) nMax).length = nMax.toNat ∧
    ∀ n : Nat, 1 ≤ n → n ≤ nMax.toNat →
      (calculateGravitationalStates (sha content) nMax).getD (n - 1) 0
          = (hexToBytes (sha content)).getD ((n - 1) % 16) 0 % (2 * n * n + 1) ∧
      (calculateGravitationalStates (sha content) nMax).getD (n - 1) 0
          ≤ 2 * n * n := by
  have hbytes : (hexToBytes (sha content)).length = 32 := by
    rw [hexToBytes_length, h64]
  have hrel : ((hexToBytes (sha content)).take 16).length = 16 := by
    simp [List.length_take, hbytes]
  refine ⟨calculateGravitationalStates_length _ _, ?_⟩
  intro n hn1 hnmax
  have hlt : n - 1 < nMax.toNat := by omega
  have hgetD : (calculateGravitationalStates (sha content) nMax).getD (n - 1) 0
      = ((hexToBytes (sha content)).take 16).getD ((n - 1) % 16) 0
          % (2 * n * n + 1) := by
    have hlen : n - 1 < (calculateGravitationalStates (sha content) nMax).length := by
      rw [calculateGravitationalStates_length]; exact hlt
    rw [List.getD_eq_getElem _ _ hlen]
    simp only [calculateGravitationalStates, List.getElem_map, List.getElem_range]
    have hn : n - 1 + 1 = n := by omega
    rw [hrel, hn]
  have htake : ((hexToBytes (sha content)).take 16).getD ((n - 1) % 16) 0
      = (hexToBytes (sha content)).getD ((n - 1) % 16) 0 := by
    have hmod : (n - 1) % 16 < 16 := Nat.mod_lt _ (by norm_num)
    rw [List.getD_eq_getElem _ _ (by rw [hrel]; exact hmod),
        List.getD_eq_getElem _ _ (by rw [hbytes]; omega)]
    apply List.getElem_take
  refine ⟨by rw [hgetD, htake], ?_⟩
  rw [hgetD]
  have := Nat.mod_lt (((hexToBytes (sha content)).take 16).getD ((n - 1) % 16) 0)
    (show 0 < 2 * n * n + 1 by omega)
  omega

/-- Witness for C1 with a concrete digest function and `nMax = 15`. -/
theorem gravitationalStates_spec_witness :
    (calculateGravitationalStates ((fun _ => List.replicate 64 'a')
        (String.toList "abc")) 15).length = (15 : Int).toNat ∧
    ∀ n : Nat, 1 ≤ n → n ≤ (15 : Int).toNat →
      (calculateGravitationalStates ((fun _ => List.replicate 64 'a')
          (String.toList "abc")) 15).getD (n - 1) 0
          = (hexToBytes ((fun _ => List.replicate 64 'a')
              (String.toList "abc"))).getD ((n - 1) % 16) 0 % (2 * n * n + 1) ∧
      (calculateGravitationalStates ((fun _ => List.replicate 64 'a')
          (String.toList "abc")) 15).getD (n - 1) 0 ≤ 2 * n * n :=
  gravitationalStates_spec (fun _ => List.replicate 64 'a')
    (String.toList "abc") 15 (by decide) (by decide)

/-- C5.  Every chunk assembled by `createLibrary` records as its digest
exactly the digest of its stored content, so `verifyIntegrity` reports
it verified immediately after creation. -/
theorem create_verify_roundtrip (sha : List Char → List Char)
    (name text : List Char) (n_max : Int) (uuidOf tsOf : Nat → List Char)
    (now : List Char) (c : CompressedChunk)
    (hc : c ∈ (createLibrary sha name text n_max uuidOf tsOf now).chunks) :
    verifyIntegrity sha c = true := by
  simp only [createLibrary, List.mem_map] at hc
  obtain ⟨p, _, hp⟩ := hc
  subst hp
  simp [verifyIntegrity, compressChunk]

/-- Witness for C5: a concrete single-chunk library round-trips. -/
theorem create_verify_roundtrip_witness :
    verifyIntegrity (fun _ => List.replicate 64 'a')
      (compressChunk (fun _ => List.replicate 64 'a')
        (String.toList "hello") 15 [] []) = true :=
  create_verify_roundtrip (fun _ => List.replicate 64 'a')
    (String.toList "demo") (String.toList "hello") 15
    (fun _ => []) (fun _ => []) []
    (compressChunk (fun _ => List.replicate 64 'a')
      (String.toList "hello") 15 [] [])
    (by
      simp [createLibrary, chunkText, splitWs, groupsOf, splitOn,
        splitOnAux, isWs, joinSpace, List.enum, List.enumFrom])

/-- The keyword sub-score as the spec words it: the fraction of
lower-cased query tokens longer than 3 characters (split at non-word
boundaries) that have a substring match with some chunk-content token
in either direction, or 0 when no tokens survive the filter. -/
def keywordScoreSpec (query : List Char) (chunk : CompressedChunk) : Rat :=
  let kept := (splitNonWord (jsToLower query)).filter (fun w => w.length > 3)
  let contentWords := splitNonWord (jsToLower chunk.content)
  if kept.length > 0 then
    ((kept.filter (fun qWord =>
        contentWords.any (fun cWord =>
          includes cWord qWord || includes qWord cWord))).length : Rat)
      / (kept.length : Rat)
  else 0

/-- The digest sub-score as the spec words it: the fraction of the 64
hex-character positions of the query's digest at which it agrees with
the chunk's digest. -/
def digestScoreSpec (sha : List Char → List Char) (query : List Char)
    (chunk : CompressedChunk) : Rat :=
  ((((sha (jsToLower query)).zip chunk.hash).filter
      (fun p => p.1 = p.2)).length : Rat) / 64

theorem keywordScoreSpec_nonneg (query : List Char) (chunk : CompressedChunk) :
    0 ≤ keywordScoreSpec query chunk := by
  simp only [keywordScoreSpec]
  split
  · positivity
  · exact le_refl 0

theorem keywordScoreSpec_le_one (query : List Char) (chunk : CompressedChunk) :
    keywordScoreSpec query chunk ≤ 1 := by
  simp only [keywordScoreSpec]
  split
  · rename_i h
    rw [div_le_one (by exact_mod_cast h)]
    exact_mod_cast List.length_filter_le _ _
  · norm_num

theorem digestScoreSpec_nonneg (sha : List Char → List Char)
    (query : List Char) (chunk : CompressedChunk) :
    0 ≤ digestScoreSpec sha query chunk := by
  simp only [digestScoreSpec]
  positivity

theorem digestScoreSpec_le_one (sha : List Char → List Char)
    (query : List Char) (chunk : CompressedChunk)
    (h64 : (sha (jsToLower query)).length = 64) :
    digestScoreSpec sha query chunk ≤ 1 := by
  simp only [digestScoreSpec]
  rw [div_le_one (by norm_num)]
  have hle : (((sha (jsToLower query)).zip chunk.hash).filter
      (fun p => p.1 = p.2)).length ≤ 64 := by
    calc (((sha (jsToLower query)).zip chunk.hash).filter
          (fun p => p.1 = p.2)).length
        ≤ ((sha (jsToLower query)).zip chunk.hash).length :=
          List.length_filter_le _ _
      _ ≤ (sha (jsToLower query)).length := by
          rw [List.length_zip]; exact Nat.min_le_left _ _
      _ = 64 := h64
  exact_mod_cast hle

/-- C3.  The Similarity Scorer returns exactly
`0.7 * keywordScore + 0.3 * digestScore` (with the keyword score
falling back to 0 when no query token survives the length filter), and
the result always lies in `[0, 1]`.  The only fact assumed about the
external SHA-256 call is that its hex digest has 64 characters. -/
theorem calculateSimilarity_spec (sha : List Char → List Char)
    (query : List Char) (chunk : CompressedChunk)
    (h64 : (sha (jsToLower query)).length = 64) :
    calculateSimilarity sha query chunk
        = 7 / 10 * keywordScoreSpec query chunk
          + 3 / 10 * digestScoreSpec sha query chunk ∧
    0 ≤ calculateSimilarity sha query chunk ∧
    calculateSimilarity sha query chunk ≤ 1 := by
  have heq : calculateSimilarity sha query chunk
      = 7 / 10 * keywordScoreSpec query chunk
        + 3 / 10 * digestScoreSpec sha query chunk := by
    simp only [calculateSimilarity, keywordScoreSpec, digestScoreSpec]
    rw [h64]
    ring
  refine ⟨heq, ?_, ?_⟩
  · rw [heq]
    have h1 := keywordScoreSpec_nonneg query chunk
    have h2 := digestScoreSpec_nonneg sha query chunk
    positivity
  · rw [heq]
    have h1 := keywordScoreSpec_le_one query chunk
    have h2 := digestScoreSpec_le_one sha query chunk h64
    have h3 := keywordScoreSpec_nonneg query chunk
    have h4 := digestScoreSpec_nonneg sha query chunk
    linarith

/-- Witness for C3 at a concrete query and chunk. -/
theorem calculateSimilarity_spec_witness :
    calculateSimilarity (fun _ => List.replicate 64 'a')
        (String.toList "test query") (compressChunk
          (fun _ => List.replicate 64 'a') (String.toList "some content")
          15 [] [])
        = 7 / 10 * keywordScoreSpec (String.toList "test query")
            (compressChunk (fun _ => List.replicate 64 'a')
              (String.toList "some content") 15 [] [])
          + 3 / 10 * digestScoreSpec (fun _ => List.replicate 64 'a')
            (String.toList "test query")
            (compressChunk (fun _ => List.replicate 64 'a')
              (String.toList "some content") 15 [] []) ∧
    0 ≤ calculateSimilarity (fun _ => List.replicate 64 'a')
        (String.toList "test query") (compressChunk
          (fun _ => List.replicate 64 'a') (String.toList "some content")
          15 [] []) ∧
    calculateSimilarity (fun _ => List.replicate 64 'a')
        (String.toList "test query") (compressChunk
          (fun _ => List.replicate 64 'a') (String.toList "some content")
          15 [] []) ≤ 1 :=
  calculateSimilarity_spec (fun _ => List.replicate 64 'a')
    (String.toList "test query")
    (compressChunk (fun _ => List.replicate 64 'a')
      (String.toList "some content") 15 [] []) (by decide)

theorem foldl_descriptor_size (k : Nat) :
    ∀ (l : List CompressedChunk) (init : Nat),
      (∀ c ∈ l, c.gravitational_bit.states.length = k) →
      l.foldl (fun sum chunk =>
          sum + 32 + chunk.gravitational_bit.states.length * 4) init
        = init + l.length * (32 + 4 * k)
  | [], init, _ => by simp
  | c :: rest, init, h => by
      have hc : c.gravitational_bit.states.length = k := h c (by simp)
      rw [List.foldl_cons,
        foldl_descriptor_size k rest _ (fun d hd => h d (by simp [hd])),
        hc, List.length_cons]
      ring

/-- C6 counterexample.  The claim says the recorded aggregate ratio is
the total original *byte* length divided by the total descriptor byte
length.  `createLibrary` divides by `text.length` — the number of
UTF-16 code units — not the UTF-8 byte length.  For 92 copies of `é`
(one chunk, descriptor size `32 + 4*15 = 92` bytes) the code records a
ratio of 1, while the byte-length ratio is `184 / 92 = 2`. -/
theorem compressionRatio_counterexample :
    (createLibrary (fun _ => List.replicate 64 'a') (String.toList "demo")
        (List.replicate 92 'é') 15 (fun _ => []) (fun _ => [])
        []).total_compression_ratio = 1 ∧
    (utf8Length (List.replicate 92 'é') : Rat)
        / ((chunkText (List.replicate 92 'é') 250).length * (32 + 4 * 15)) = 2 ∧
    (1 : Rat) ≠ 2 := by
  have hchunk : chunkText (List.replicate 92 'é') 250
      = [List.replicate 92 'é'] := by
    simp [chunkText, splitWs, splitOn, splitOnAux, isWs, groupsOf, joinSpace,
      List.replicate]
  have hjs : jsLength (List.replicate 92 'é') = 92 := by decide
  have hutf : utf8Length (List.replicate 92 'é') = 184 := by decide
  have hstates : (calculateGravitationalStates
      ((fun _ => List.replicate 64 'a') (List.replicate 92 'é')) 15).length
      = 15 := calculateGravitationalStates_length _ _
  refine ⟨?_, ?_, by norm_num⟩
  · simp only [createLibrary, hchunk, List.enum, List.enumFrom, List.map_cons,
      List.map_nil, List.foldl_cons, List.foldl_nil, hjs]
    simp only [compressChunk, hstates]
    norm_num
  · rw [hchunk, hutf]
    norm_num

/-- C6 amended.  The aggregate compression ratio recorded by
`createLibrary` is the text length in UTF-16 code units (JavaScript
`text.length`, not the UTF-8 byte length) divided by the total
serialized-descriptor size, `32 + 4*nMax` bytes per chunk. -/
theorem compressionRatio_spec (sha : List Char → List Char)
    (name text : List Char) (nMax : Int) (uuidOf tsOf : Nat → List Char)
    (now : List Char) :
    (createLibrary sha name text nMax uuidOf tsOf now).total_compression_ratio
      = (jsLength text : Rat)
        / (((chunkText text 250).length * (32 + 4 * nMax.toNat) : Nat) : Rat) := by
  simp only [createLibrary]
  have hall : ∀ c ∈ (chunkText text 250).enum.map
      (fun p => compressChunk sha p.2 nMax (uuidOf p.1) (tsOf p.1)),
      c.gravitational_bit.states.length = nMax.toNat := by
    intro c hc
    simp only [List.mem_map] at hc
    obtain ⟨p, _, hp⟩ := hc
    subst hp
    simp [compressChunk, calculateGravitationalStates_length]
  rw [foldl_descriptor_size nMax.toNat _ 0 hall]
  simp [List.enum_length]

theorem insertDesc_perm (x : CompressedChunk × Rat)
    (l : List (CompressedChunk × Rat)) : (insertDesc x l).Perm (x :: l) := by
  induction l with
  | nil => exact List.Perm.refl _
  | cons y ys ih =>
    simp only [insertDesc]
    split
    · exact ((ih.cons y).trans (List.Perm.swap x y ys))
    · exact List.Perm.refl _

theorem sortDesc_perm (l : List (CompressedChunk × Rat)) :
    (sortDesc l).Perm l := by
  induction l with
  | nil => exact List.Perm.refl _
  | cons x xs ih => exact (insertDesc_perm x (sortDesc xs)).trans (ih.cons x)

theorem mem_insertDesc {x a : CompressedChunk × Rat}
    {l : List (CompressedChunk × Rat)} (h : a ∈ insertDesc x l) :
    a = x ∨ a ∈ l := by
  have := (insertDesc_perm x l).mem_iff.mp h
  simpa using this

theorem insertDesc_pairwise (x : CompressedChunk × Rat)
    (l : List (CompressedChunk × Rat))
    (h : l.Pairwise (fun a b => a.2 ≥ b.2)) :
    (insertDesc x l).Pairwise (fun a b => a.2 ≥ b.2) := by
  induction l with
  | nil => simp [insertDesc]
  | cons y ys ih =>
    rw [List.pairwise_cons] at h
    obtain ⟨hy, hys⟩ := h
    simp only [insertDesc]
    split
    · rename_i hgt
      rw [List.pairwise_cons]
      refine ⟨?_, ih hys⟩
      intro a ha
      rcases mem_insertDesc ha with rfl | ha
      · exact le_of_lt hgt
      · exact hy a ha
    · rename_i hle
      push_neg at hle
      rw [List.pairwise_cons]
      refine ⟨?_, List.pairwise_cons.mpr ⟨hy, hys⟩⟩
      intro a ha
      rcases List.mem_cons.mp ha with rfl | ha
      · exact hle
      · exact le_trans (hy a ha) hle

theorem sortDesc_pairwise (l : List (CompressedChunk × Rat)) :
    (sortDesc l).Pairwise (fun a b => a.2 ≥ b.2) := by
  induction l with
  | nil => simp [sortDesc]
  | cons x xs ih => exact insertDesc_pairwise x (sortDesc xs) ih

theorem filter_insertDesc (s : Rat) (x : CompressedChunk × Rat)
    (l : List (CompressedChunk × Rat)) :
    (insertDesc x l).filter (fun z => decide (z.2 = s))
      = (x :: l).filter (fun z => decide (z.2 = s)) := by
  induction l with
  | nil => rfl
  | cons y ys ih =>
    simp only [insertDesc]
    split
    · rename_i hgt
      by_cases hx : x.2 = s
      · have hy : ¬ (y.2 = s) := by
          intro hcontra
          rw [hx] at hgt
          exact absurd hcontra (ne_of_gt hgt)
        simp only [List.filter_cons]
        rw [ih]
        simp [hx, hy, List.filter_cons]
      · simp only [List.filter_cons]
        rw [ih]
        simp [hx, List.filter_cons]
    · rfl

theorem filter_sortDesc (s : Rat) (l : List (CompressedChunk × Rat)) :
    (sortDesc l).filter (fun z => decide (z.2 = s))
      = l.filter (fun z => decide (z.2 = s)) := by
  induction l with
  | nil => rfl
  | cons x xs ih =>
    simp only [sortDesc]
    rw [filter_insertDesc]
    simp only [List.filter_cons]
    rw [ih]

theorem mem_scored_snd (sha : List Char → List Char) (query : List Char)
    (chunks : List CompressedChunk) (z : CompressedChunk × Rat)
    (hz : z ∈ chunks.map (fun c => (c, calculateSimilarity sha query c))) :
    z.2 = calculateSimilarity sha query z.1 := by
  simp only [List.mem_map] at hz
  obtain ⟨c, _, rfl⟩ := hz
  rfl

/-- C4.  `queryLibrary` returns exactly `min topK chunkCount` chunks,
in non-increasing similarity-score order, and the chunks of any fixed
score appear as a prefix of the equally-scored chunks of the library in
their original insertion order (stable ranking). -/
theorem queryLibrary_topk (sha : List Char → List Char)
    (library : KnowledgeLibrary) (query : List Char) (topK : Nat)
    (htop : 1 ≤ topK) :
    (queryLibrary sha library query topK).length
        = min topK library.chunks.length ∧
    (queryLibrary sha library query topK).Pairwise
        (fun a b => calculateSimilarity sha query a
          ≥ calculateSimilarity sha query b) ∧
    ∀ s : Rat,
      (queryLibrary sha library query topK).filter
          (fun c => decide (calculateSimilarity sha query c = s))
        <+: library.chunks.filter
          (fun c => decide (calculateSimilarity sha query c = s)) := by
  set g : CompressedChunk → CompressedChunk × Rat :=
    fun c => (c, calculateSimilarity sha query c) with hg
  set scored := library.chunks.map g with hscored
  set sorted := sortDesc scored with hsorted
  have hinv : ∀ z ∈ sorted, z.2 = calculateSimilarity sha query z.1 := by
    intro z hz
    exact mem_scored_snd sha query library.chunks z
      ((sortDesc_perm scored).subset hz)
  have hql : queryLibrary sha library query topK
      = (sorted.take topK).map (fun sc => sc.1) := rfl
  refine ⟨?_, ?_, ?_⟩
  · rw [hql, List.length_map, List.length_take,
      (sortDesc_perm scored).length_eq, hscored, List.length_map]
  · rw [hql]
    rw [List.pairwise_map]
    have hp : sorted.Pairwise (fun a b => a.2 ≥ b.2) := sortDesc_pairwise scored
    have hp' : sorted.Pairwise (fun a b =>
        calculateSimilarity sha query a.1 ≥ calculateSimilarity sha query b.1) := by
      refine List.Pairwise.imp_of_mem ?_ hp
      intro a b ha hb hab
      rw [← hinv a ha, ← hinv b hb]
      exact hab
    exact hp'.sublist (List.take_sublist _ _)
  · intro s
    rw [hql]
    have hfm : ((sorted.take topK).map (fun sc => sc.1)).filter
        (fun c => decide (calculateSimilarity sha query c = s))
        = ((sorted.take topK).filter
            (fun z => decide (z.2 = s))).map (fun sc => sc.1) := by
      rw [List.filter_map]
      congr 1
      apply List.filter_congr
      intro z hz
      have hz' : z ∈ sorted := (List.take_sublist _ _).subset hz
      simp [Function.comp, hinv z hz']
    rw [hfm]
    have hcf : library.chunks.filter
        (fun c => decide (calculateSimilarity sha query c = s))
        = (sorted.filter (fun z => decide (z.2 = s))).map (fun sc => sc.1) := by
      rw [hsorted, filter_sortDesc, hscored, List.filter_map, List.map_map]
      have : ((fun z : CompressedChunk × Rat => decide (z.2 = s)) ∘ g)
          = fun c => decide (calculateSimilarity sha query c = s) := rfl
      rw [this]
      have : ((fun sc : CompressedChunk × Rat => sc.1) ∘ g) = id := rfl
      rw [this, List.map_id]
    rw [hcf]
    exact ((List.take_prefix topK sorted).filter _).map _

/-- Witness for C4 on a concrete two-chunk library with `topK = 8`. -/
theorem queryLibrary_topk_witness :
    (queryLibrary (fun _ => List.replicate 64 'a')
        (KnowledgeLibrary.mk (String.toList "demo")
          [compressChunk (fun _ => List.replicate 64 'a')
              (String.toList "alpha") 15 [] [],
           compressChunk (fun _ => List.replicate 64 'a')
              (String.toList "beta") 15 [] []] 0 [] [])
        (String.toList "alpha") 8).length
      = min 8 (KnowledgeLibrary.mk (String.toList "demo")
          [compressChunk (fun _ => List.replicate 64 'a')
              (String.toList "alpha") 15 [] [],
           compressChunk (fun _ => List.replicate 64 'a')
              (String.toList "beta") 15 [] []] 0 [] []).chunks.length ∧
    (queryLibrary (fun _ => List.replicate 64 'a')
        (KnowledgeLibrary.mk (String.toList "demo")
          [compressChunk (fun _ => List.replicate 64 'a')
              (String.toList "alpha") 15 [] [],
           compressChunk (fun _ => List.replicate 64 'a')
              (String.toList "beta") 15 [] []] 0 [] [])
        (String.toList "alpha") 8).Pairwise
        (fun a b => calculateSimilarity (fun _ => List.replicate 64 'a')
            (String.toList "alpha") a
          ≥ calculateSimilarity (fun _ => List.replicate 64 'a')
            (String.toList "alpha") b) ∧
    ∀ s : Rat,
      (queryLibrary (fun _ => List.replicate 64 'a')
          (KnowledgeLibrary.mk (String.toList "demo")
            [compressChunk (fun _ => List.replicate 64 'a')
                (String.toList "alpha") 15 [] [],
             compressChunk (fun _ => List.replicate 64 'a')
                (String.toList "beta") 15 [] []] 0 [] [])
          (String.toList "alpha") 8).filter
          (fun c => decide (calculateSimilarity (fun _ => List.replicate 64 'a')
            (String.toList "alpha") c = s))
        <+: (KnowledgeLibrary.mk (String.toList "demo")
            [compressChunk (fun _ => List.replicate 64 'a')
                (String.toList "alpha") 15 [] [],
             compressChunk (fun _ => List.replicate 64 'a')
                (String.toList "beta") 15 [] []] 0 [] []).chunks.filter
          (fun c => decide (calculateSimilarity (fun _ => List.replicate 64 'a')
            (String.toList "alpha") c = s)) :=
  queryLibrary_topk (fun _ => List.replicate 64 'a')
    (KnowledgeLibrary.mk (String.toList "demo")
      [compressChunk (fun _ => List.replicate 64 'a')
          (String.toList "alpha") 15 [] [],
       compressChunk (fun _ => List.replicate 64 'a')
          (String.toList "beta") 15 [] []] 0 [] [])
    (String.toList "alpha") 8 (by decide)

/-- C10.  `queryLibrary` leaves the library it reads unchanged — the
sort happens on the freshly built scored copy, the state threaded
through `queryLibraryState` comes back identical — and every returned
chunk is an element of the library's untouched chunk list. -/
theorem queryLibrary_frame (sha : List Char → List Char)
    (library : KnowledgeLibrary) (query : List Char) (topK : Nat) :
    (queryLibraryState sha library query topK).2 = library ∧
    ∀ c ∈ (queryLibraryState sha library query topK).1,
      c ∈ library.chunks := by
  refine ⟨rfl, ?_⟩
  intro c hc
  simp only [queryLibraryState, queryLibrary, List.mem_map] at hc
  obtain ⟨z, hz, rfl⟩ := hc
  have hz1 : z ∈ sortDesc (library.chunks.map
      (fun chunk => (chunk, calculateSimilarity sha query chunk))) :=
    (List.take_sublist _ _).subset hz
  have hz2 := (sortDesc_perm _).subset hz1
  simp only [List.mem_map] at hz2
  obtain ⟨d, hd, rfl⟩ := hz2
  exact hd

/-- Witness for C10 on a concrete one-chunk library. -/
theorem queryLibrary_frame_witness :
    (queryLibraryState (fun _ => List.replicate 64 'a')
        (KnowledgeLibrary.mk (String.toList "demo")
          [compressChunk (fun _ => List.replicate 64 'a')
              (String.toList "hello") 15 [] []] 0 [] [])
        (String.toList "q") 8).2
      = KnowledgeLibrary.mk (String.toList "demo")
          [compressChunk (fun _ => List.replicate 64 'a')
              (String.toList "hello") 15 [] []] 0 [] [] ∧
    compressChunk (fun _ => List.replicate 64 'a')
        (String.toList "hello") 15 [] []
      ∈ (KnowledgeLibrary.mk (String.toList "demo")
          [compressChunk (fun _ => List.replicate 64 'a')
              (String.toList "hello") 15 [] []] 0 [] []).chunks :=
  ⟨(queryLibrary_frame (fun _ => List.replicate 64 'a')
      (KnowledgeLibrary.mk (String.toList "demo")
        [compressChunk (fun _ => List.replicate 64 'a')
            (String.toList "hello") 15 [] []] 0 [] [])
      (String.toList "q") 8).1,
   (queryLibrary_frame (fun _ => List.replicate 64 'a')
      (KnowledgeLibrary.mk (String.toList "demo")
        [compressChunk (fun _ => List.replicate 64 'a')
            (String.toList "hello") 15 [] []] 0 [] [])
      (String.toList "q") 8).2
     (compressChunk (fun _ => List.replicate 64 'a')
        (String.toList "hello") 15 [] [])
     (by simp [queryLibraryState, queryLibrary, sortDesc, insertDesc])⟩

theorem head?_dropWhile_false (p : Char → Bool) :
    ∀ (l : List Char) (c : Char), (l.dropWhile p).head? = some c →
      p c = false
  | [], c => by simp
  | a :: rest, c => by
      by_cases ha : p a
      · rw [List.dropWhile_cons_of_pos ha]
        exact head?_dropWhile_false p rest c
      · rw [List.dropWhile_cons_of_neg ha]
        intro h
        rw [List.head?_cons, Option.some.injEq] at h
        subst h
        simpa using ha

theorem getLast?_dropWhile (p : Char → Bool) :
    ∀ (l : List Char), l.dropWhile p ≠ [] →
      (l.dropWhile p).getLast? = l.getLast?
  | [], h => absurd rfl h
  | a :: rest, h => by
      by_cases ha : p a
      · rw [List.dropWhile_cons_of_pos ha] at h ⊢
        rw [getLast?_dropWhile p rest h]
        have hrest : rest ≠ [] := by
          intro hc
          rw [hc] at h
          exact h rfl
        obtain ⟨b, rest2, rfl⟩ : ∃ b rest2, rest = b :: rest2 := by
          cases rest with
          | nil => exact absurd rfl hrest
          | cons b rest2 => exact ⟨b, rest2, rfl⟩
        rw [List.getLast?_cons_cons]
      · rw [List.dropWhile_cons_of_neg ha]

theorem dropWhile_ne_nil_of_getLast? (p : Char → Bool) :
    ∀ (l : List Char) (c : Char), l.getLast? = some c → p c = false →
      l.dropWhile p ≠ []
  | [], c => by simp
  | a :: rest, c => by
      intro hlast hpc
      by_cases ha : p a
      · rw [List.dropWhile_cons_of_pos ha]
        cases rest with
        | nil =>
            simp only [List.getLast?_singleton, Option.some.injEq] at hlast
            subst hlast
            rw [ha] at hpc
            exact absurd hpc (by simp)
        | cons b rest2 =>
            rw [List.getLast?_cons_cons] at hlast
            exact dropWhile_ne_nil_of_getLast? p (b :: rest2) c hlast hpc
      · rw [List.dropWhile_cons_of_neg ha]
        simp

theorem splitOnAux_tokens_false (p : Char → Bool) :
    ∀ (s acc : List Char), (∀ c ∈ acc, p c = false) →
      ∀ t ∈ splitOnAux p s acc, ∀ c ∈ t, p c = false
  | [], acc, hacc => by
      intro t ht c hc
      simp only [splitOnAux, List.mem_singleton] at ht
      subst ht
      exact hacc c (List.mem_reverse.mp hc)
  | ch :: rest, acc, hacc => by
      intro t ht c hc
      by_cases hch : p ch
      · rw [splitOnAux, if_pos hch] at ht
        rcases List.mem_cons.mp ht with rfl | ht
        · exact hacc c (List.mem_reverse.mp hc)
        · exact splitOnAux_tokens_false p (rest.dropWhile p) []
            (by simp) t ht c hc
      · rw [splitOnAux, if_neg hch] at ht
        refine splitOnAux_tokens_false p rest (ch :: acc) ?_ t ht c hc
        intro d hd
        rcases List.mem_cons.mp hd with rfl | hd
        · simpa using hch
        · exact hacc d hd
termination_by s _ => s.length
decreasing_by
  · simp only [List.length_cons]
    exact Nat.lt_succ_of_le (length_dropWhile_le' p rest)
  · simp

/-- Every token produced by the splitter is free of separator
characters. -/
theorem splitOn_tokens_false (p : Char → Bool) (s : List Char) :
    ∀ t ∈ splitOn p s, ∀ c ∈ t, p c = false :=
  splitOnAux_tokens_false p s [] (by simp)

theorem splitOnAux_nonempty (p : Char → Bool) :
    ∀ (s acc : List Char),
      (∀ c, s.getLast? = some c → p c = false) →
      (acc ≠ [] ∨ ∃ c, s.head? = some c ∧ p c = false) →
      ∀ t ∈ splitOnAux p s acc, t ≠ []
  | [], acc, _, hok => by
      intro t ht
      simp only [splitOnAux, List.mem_singleton] at ht
      subst ht
      rcases hok with hacc | ⟨c, hc, _⟩
      · simpa using hacc
      · simp at hc
  | ch :: rest, acc, hlast, hok => by
      intro t ht
      by_cases hch : p ch
      · have hacc : acc ≠ [] := by
          rcases hok with hacc | ⟨c, hc, hpc⟩
          · exact hacc
          · rw [List.head?_cons, Option.some.injEq] at hc
            subst hc
            rw [hch] at hpc
            exact absurd hpc (by simp)
        rw [splitOnAux, if_pos hch] at ht
        rcases List.mem_cons.mp ht with rfl | ht
        · simpa using hacc
        · have hrest : rest ≠ [] := by
            intro hcontra
            subst hcontra
            have := hlast ch (by simp)
            rw [hch] at this
            exact absurd this (by simp)
          have hlrest : ∀ c, rest.getLast? = some c → p c = false := by
            intro c hc
            refine hlast c ?_
            obtain ⟨b, rest2, rfl⟩ : ∃ b rest2, rest = b :: rest2 := by
              cases rest with
              | nil => exact absurd rfl hrest
              | cons b rest2 => exact ⟨b, rest2, rfl⟩
            rw [List.getLast?_cons_cons]
            exact hc
          have hglast : ∃ c, rest.getLast? = some c ∧ p c = false := by
            obtain ⟨c, hc⟩ := List.getLast?_isSome.mpr hrest |> Option.isSome_iff_exists.mp
            exact ⟨c, hc, hlrest c hc⟩
          obtain ⟨c, hc, hpc⟩ := hglast
          have hdw : rest.dropWhile p ≠ [] :=
            dropWhile_ne_nil_of_getLast? p rest c hc hpc
          refine splitOnAux_nonempty p (rest.dropWhile p) [] ?_ ?_ t ht
          · intro d hd
            rw [getLast?_dropWhile p rest hdw] at hd
            exact hlrest d hd
          · refine Or.inr ?_
            obtain ⟨d, hd⟩ := List.head?_isSome.mpr hdw |> Option.isSome_iff_exists.mp
            exact ⟨d, hd, head?_dropWhile_false p rest d hd⟩
      · rw [splitOnAux, if_neg hch] at ht
        refine splitOnAux_nonempty p rest (ch :: acc) ?_ (Or.inl (by simp)) t ht
        intro c hc
        refine hlast c ?_
        obtain ⟨b, rest2, rfl⟩ : ∃ b rest2, rest = b :: rest2 := by
          cases rest with
          | nil => simp at hc
          | cons b rest2 => exact ⟨b, rest2, rfl⟩
        rw [List.getLast?_cons_cons]
        exact hc
termination_by s _ => s.length
decreasing_by
  · simp only [List.length_cons]
    exact Nat.lt_succ_of_le (length_dropWhile_le' p rest)
  · simp

/-- When the input is nonempty and neither starts nor ends with a
separator character, no token of the split is empty. -/
theorem splitOn_tokens_nonempty (p : Char → Bool) (s : List Char)
    (h : s ≠ [])
    (hh : ∀ c, s.head? = some c → p c = false)
    (hl : ∀ c, s.getLast? = some c → p c = false) :
    ∀ t ∈ splitOn p s, t ≠ [] := by
  refine splitOnAux_nonempty p s [] hl (Or.inr ?_)
  obtain ⟨c, hc⟩ := List.head?_isSome.mpr h |> Option.isSome_iff_exists.mp
  exact ⟨c, hc, hh c hc⟩

theorem splitOnAux_append_false (p : Char → Bool) :
    ∀ (t s acc : List Char), (∀ c ∈ t, p c = false) →
      splitOnAux p (t ++ s) acc = splitOnAux p s (t.reverse ++ acc)
  | [], s, acc, _ => by simp
  | c :: t2, s, acc, h => by
      have hc : p c = false := h c (by simp)
      rw [List.cons_append, splitOnAux, if_neg (by simp [hc])]
      rw [splitOnAux_append_false p t2 s (c :: acc)
        (fun d hd => h d (by simp [hd]))]
      simp

theorem splitOn_joinSpace (p : Char → Bool) (hsp : p ' ' = true) :
    ∀ ts : List (List Char), ts ≠ [] →
      (∀ t ∈ ts, t ≠ []) → (∀ t ∈ ts, ∀ c ∈ t, p c = false) →
      splitOn p (joinSpace ts) = ts
  | [], hne, _, _ => absurd rfl hne
  | [t], _, hne, hfree => by
      have : joinSpace [t] = t := rfl
      rw [splitOn, this]
      have := splitOnAux_append_false p t [] []
        (fun c hc => hfree t (by simp) c hc)
      rw [List.append_nil] at this
      rw [this, splitOnAux]
      simp
  | t :: t2 :: rest, _, hne, hfree => by
      have hj : joinSpace (t :: t2 :: rest) = t ++ ' ' :: joinSpace (t2 :: rest) := rfl
      rw [splitOn, hj]
      rw [splitOnAux_append_false p t (' ' :: joinSpace (t2 :: rest)) []
        (fun c hc => hfree t (by simp) c hc)]
      rw [splitOnAux, if_pos hsp]
      have ht2ne : t2 ≠ [] := hne t2 (by simp)
      obtain ⟨c2, t2', rfl⟩ : ∃ c2 t2', t2 = c2 :: t2' := by
        cases t2 with
        | nil => exact absurd rfl ht2ne
        | cons c2 t2' => exact ⟨c2, t2', rfl⟩
      have hhead : ∃ u, joinSpace ((c2 :: t2') :: rest) = c2 :: u := by
        cases rest with
        | nil => exact ⟨t2', rfl⟩
        | cons t3 rest2 => exact ⟨t2' ++ ' ' :: joinSpace (t3 :: rest2), rfl⟩
      obtain ⟨u, hu⟩ := hhead
      have hc2 : p c2 = false := hfree (c2 :: t2') (by simp) c2 (by simp)
      rw [hu, List.dropWhile_cons_of_neg (by simp [hc2]), ← hu]
      have ih := splitOn_joinSpace p hsp ((c2 :: t2') :: rest) (by simp)
        (fun d hd => hne d (by simp [hd]))
        (fun d hd c hc => hfree d (by simp [hd]) c hc)
      rw [splitOn] at ih
      rw [ih]
      simp

theorem groupsOf_join (w : Nat) (hw : 1 ≤ w) :
    ∀ l : List (List Char), (groupsOf w l).flatten = l
  | [] => by simp [groupsOf]
  | x :: xs => by
      rw [groupsOf, dif_neg (by omega : ¬ (w = 0))]
      rw [List.flatten_cons, groupsOf_join w hw ((x :: xs).drop w)]
      exact List.take_append_drop w (x :: xs)
termination_by l => l.length
decreasing_by
  simp only [List.length_drop, List.length_cons]
  omega

theorem groupsOf_length (w : Nat) (hw : 1 ≤ w) :
    ∀ l : List (List Char), (groupsOf w l).length = (l.length + w - 1) / w
  | [] => by
      simp only [groupsOf, List.length_nil]
      rw [Nat.div_eq_of_lt (by omega)]
  | x :: xs => by
      rw [groupsOf, dif_neg (by omega : ¬ (w = 0))]
      rw [List.length_cons, groupsOf_length w hw ((x :: xs).drop w)]
      rw [List.length_drop, List.length_cons]
      by_cases hle : xs.length + 1 ≤ w
      · have h1 : xs.length + 1 - w = 0 := by omega
        rw [h1]
        rw [Nat.div_eq_of_lt (by omega)]
        rw [(by omega : xs.length + 1 + w - 1 = w * 1 + (xs.length + 1 - 1))]
        rw [Nat.mul_add_div (by omega)]
        rw [Nat.div_eq_of_lt (by omega)]
      · have h2 : xs.length + 1 - w + w - 1 = xs.length + 1 - 1 := by omega
        have h3 : xs.length + 1 + w - 1 = (xs.length + 1 - 1) + w := by omega
        rw [h2, h3, Nat.add_div_right _ (by omega)]
termination_by l => l.length
decreasing_by
  simp only [List.length_drop, List.length_cons]
  omega

theorem groupsOf_mem_length_le (w : Nat) :
    ∀ (l : List (List Char)) (g : List (List Char)), g ∈ groupsOf w l →
      g.length ≤ w
  | [], g => by simp [groupsOf]
  | x :: xs, g => by
      intro hg
      rw [groupsOf] at hg
      by_cases hw0 : w = 0
      · rw [dif_pos hw0] at hg
        simp at hg
      · rw [dif_neg hw0] at hg
        rcases List.mem_cons.mp hg with rfl | hg
        · rw [List.length_take]
          exact Nat.min_le_left _ _
        · exact groupsOf_mem_length_le w ((x :: xs).drop w) g hg
termination_by l _ => l.length
decreasing_by
  simp only [List.length_drop, List.length_cons]
  omega

theorem groupsOf_mem_ne_nil (w : Nat) (hw : 1 ≤ w) :
    ∀ (l : List (List Char)) (g : List (List Char)), g ∈ groupsOf w l →
      g ≠ []
  | [], g => by simp [groupsOf]
  | x :: xs, g => by
      intro hg
      rw [groupsOf, dif_neg (by omega : ¬ (w = 0))] at hg
      rcases List.mem_cons.mp hg with rfl | hg
      · intro hnil
        have hlen := congrArg List.length hnil
        rw [List.length_take] at hlen
        simp only [List.length_cons, List.length_nil] at hlen
        omega
      · exact groupsOf_mem_ne_nil w hw ((x :: xs).drop w) g hg
termination_by l _ => l.length
decreasing_by
  simp only [List.length_drop, List.length_cons]
  omega

theorem mem_of_mem_groupsOf (w : Nat) (hw : 1 ≤ w)
    (l : List (List Char)) (g : List (List Char)) (hg : g ∈ groupsOf w l)
    (t : List Char) (ht : t ∈ g) : t ∈ l := by
  rw [← groupsOf_join w hw l]
  exact List.mem_flatten.mpr ⟨g, hg, ht⟩

/-- C2 counterexample.  The claim promises `ceil(W/w)` pieces for a
text with `W` whitespace-separated words.  JavaScript's
`" a".split(/\s+/)` is `["", "a"]` — a leading empty token — so the
text `" a"`, which contains exactly one word, is chunked with `w = 1`
into 2 pieces instead of `ceil(1/1) = 1` (and the first piece is the
empty string, so word concatenation fails as well). -/
theorem chunkText_counterexample :
    ((splitWs (String.toList " a")).filter (fun t => decide (t ≠ []))).length
        = 1 ∧
    (chunkText (String.toList " a") 1).length = 2 := by
  constructor
  · simp [splitWs, splitOn, splitOnAux, isWs]
  · simp [chunkText, splitWs, splitOn, splitOnAux, isWs, groupsOf, joinSpace]

/-- C2 amended.  For every text that is nonempty and neither starts nor
ends with a whitespace character (so the whitespace split produces
exactly the words, with no empty artifact tokens) and every
`w ≥ 1`: `chunkText` returns exactly `ceil(W/w)` pieces, every piece
splits back into at most `w` words, and concatenating the word lists of
all pieces in order reproduces the word sequence of the text. -/
theorem chunkText_spec (text : List Char) (w : Nat) (hw : 1 ≤ w)
    (hne : text ≠ [])
    (hh : ∀ c, text.head? = some c → isWs c = false)
    (hl : ∀ c, text.getLast? = some c → isWs c = false) :
    (∀ t ∈ splitWs text, t ≠ []) ∧
    (chunkText text w).length = ((splitWs text).length + w - 1) / w ∧
    (∀ piece ∈ chunkText text w, (splitWs piece).length ≤ w) ∧
    ((chunkText text w).map splitWs).flatten = splitWs text := by
  have hwne : ∀ t ∈ splitWs text, t ≠ [] :=
    splitOn_tokens_nonempty isWs text hne hh hl
  have hwfree : ∀ t ∈ splitWs text, ∀ c ∈ t, isWs c = false :=
    splitOn_tokens_false isWs text
  have hround : ∀ g ∈ groupsOf w (splitWs text), splitWs (joinSpace g) = g := by
    intro g hg
    refine splitOn_joinSpace isWs (by decide) g
      (groupsOf_mem_ne_nil w hw _ g hg) ?_ ?_
    · intro t ht
      exact hwne t (mem_of_mem_groupsOf w hw _ g hg t ht)
    · intro t ht c hc
      exact hwfree t (mem_of_mem_groupsOf w hw _ g hg t ht) c hc
  refine ⟨hwne, ?_, ?_, ?_⟩
  · rw [chunkText, List.length_map, groupsOf_length w hw]
  · intro piece hp
    rw [chunkText, List.mem_map] at hp
    obtain ⟨g, hg, rfl⟩ := hp
    rw [hround g hg]
    exact groupsOf_mem_length_le w _ g hg
  · rw [chunkText, List.map_map]
    have hcongr : (groupsOf w (splitWs text)).map (splitWs ∘ joinSpace)
        = (groupsOf w (splitWs text)).map id :=
      List.map_congr_left (fun g hg => by
        simp only [Function.comp_apply, id_eq]
        exact hround g hg)
    rw [hcongr, List.map_id, groupsOf_join w hw]

/-- Witness for the C2 amended theorem on the text `"a b"` with
`w = 2`. -/
theorem chunkText_spec_witness :
    (∀ t ∈ splitWs ['a', ' ', 'b'], t ≠ []) ∧
    (chunkText ['a', ' ', 'b'] 2).length
        = ((splitWs ['a', ' ', 'b']).length + 2 - 1) / 2 ∧
    (∀ piece ∈ chunkText ['a', ' ', 'b'] 2, (splitWs piece).length ≤ 2) ∧
    ((chunkText ['a', ' ', 'b'] 2).map splitWs).flatten
        = splitWs ['a', ' ', 'b'] :=
  chunkText_spec ['a', ' ', 'b'] 2 (by decide) (by decide)
    (by
      intro c hc
      simp only [List.head?_cons, Option.some.injEq] at hc
      subst hc
      decide)
    (by
      intro c hc
      simp only [List.getLast?_cons_cons, List.getLast?_singleton,
        Option.some.injEq] at hc
      subst hc
      decide)

end GravMem
